import Mathlib

/-!
Verification of the BookUdecate pipeline orchestrator (Python backend).

Strings of the Python source are modelled as `List Char` (Python strings
are sequences of code points, so `List.length` agrees with Python `len`).
Each definition is a shallow embedding of the correspondingly named
Python function; the file keeps the source names where Lean allows it.

Sources embedded here:
  * `src/chunker.py`    — `chunk_manuscript`, `_split_by_length`, strategies A/B
  * `src/graph.py`      — `_should_revise`, the revision loop, `MAX_REVISIONS`
  * `src/agents.py`     — `critic_node` (local checks + remote outcome handling)
  * `main.py`           — `process_chunk` checkpoint skip, phase resume, purge
  * `src/dlq.py`        — `DLQ.push`, `DLQ.mark_resolved`, `DLQ.get_all`
  * `server/sse_manager.py` — `SSEManager.publish`
-/

namespace Book

/-- Python `str.isspace` on the ASCII whitespace characters (the source texts
are ASCII; Python additionally treats some further Unicode code points as
whitespace, which never occur in the constants of this code base). -/
def pyIsSpace (c : Char) : Bool :=
  c = ' ' || c = '\t' || c = '\n' || c = '\r' || c = '\x0b' || c = '\x0c'

/-- Python `str.strip()`: drop leading and trailing whitespace. -/
def pyStrip (l : List Char) : List Char :=
  ((l.dropWhile pyIsSpace).reverse.dropWhile pyIsSpace).reverse

/-- All non-whitespace characters of a string, in order.  Used to state that
segmentation only re-groups text and drops separator whitespace. -/
def removeWS (l : List Char) : List Char :=
  l.filter (fun c => !pyIsSpace c)

/-- Convenience: the character list of a Lean string literal. -/
def str (s : String) : List Char := s.toList

/-- Python `s.startswith(pre)`. -/
def startsWithL (pre l : List Char) : Bool :=
  decide (l.take pre.length = pre)

/-- Python `s.endswith(suf)`. -/
def endsWithL (suf l : List Char) : Bool :=
  startsWithL suf.reverse l.reverse

/-- Python `str.upper()` restricted to ASCII case mapping. -/
def pyUpper (l : List Char) : List Char :=
  l.map Char.toUpper

/-- Python `needle in hay` on strings: contiguous substring test. -/
def containsL (needle hay : List Char) : Bool :=
  decide (needle <:+: hay)

end Book

/-! ## Phase checkpoint / resume (`main.py`, `__main__` block and `main`) -/

namespace Book.Phases

/-- `start_phase = state.get("completed_phase", 0) + 1` (main.py:830). -/
def computeStartPhase (completedPhase : Nat) : Nat :=
  completedPhase + 1

/-- The phase bodies `main` enters for a given `start_phase`.  Bodies 1–3 are
guarded by `if start_phase <= k:`; the Phase-4 body (main.py:471 onward) is
written outside the `if start_phase <= 4:` block and therefore always runs
once `main` is entered. -/
def mainBodies (startPhase : Nat) : List Nat :=
  (if startPhase ≤ 1 then [1] else []) ++
  (if startPhase ≤ 2 then [2] else []) ++
  (if startPhase ≤ 3 then [3] else []) ++ [4]

/-- The `--resume` entry point (main.py:828-836): compute the start phase from
the checkpoint; report already-complete (`none`) when it exceeds phase 4,
otherwise run `main`, returning the list of phase bodies entered. -/
def resumeRun (completedPhase : Nat) : Option (List Nat) :=
  let sp := computeStartPhase completedPhase
  if 4 < sp then none else some (mainBodies sp)

end Book.Phases

/-! ## Dead-letter store (`src/dlq.py`) -/

namespace Book.DLQ

/-- The `status` column: `'pending'` or `'resolved'`. -/
inductive Status where
  | pending
  | resolved
deriving DecidableEq, Repr

/-- One row of the `failed_chunks` table. -/
structure Rec where
  phase : Nat
  text : List Char
  error : List Char
  retryCount : Nat
  status : Status
deriving DecidableEq, Repr

/-- The table, keyed by the `id` primary key (keys are unique: `push` uses
`INSERT OR REPLACE`). -/
abbrev DB := List (List Char × Rec)

/-- `DLQ.push` (dlq.py:49-60): `INSERT OR REPLACE` a row with
`retry_count = 0` and `status = 'pending'`. -/
def push (db : DB) (id : List Char) (phase : Nat) (text error : List Char) : DB :=
  db.filter (fun row => row.1 ≠ id) ++
    [(id, ⟨phase, text, error.take 500, 0, Status.pending⟩)]

/-- `DLQ.mark_resolved` (dlq.py:76-83): `UPDATE … SET status='resolved'
WHERE id=?`. -/
def mark_resolved (db : DB) (id : List Char) : DB :=
  db.map (fun row => if row.1 = id then (row.1, { row.2 with status := Status.resolved }) else row)

/-- `DLQ.get_all` (dlq.py:65-74): all rows whose status equals the argument. -/
def get_all (db : DB) (status : Status) : DB :=
  db.filter (fun row => row.2.status = status)

/-- The mutating operations of the store's public interface. -/
inductive Op where
  | push (id : List Char) (phase : Nat) (text error : List Char)
  | markResolved (id : List Char)

/-- Apply one mutating operation. -/
def applyOp (db : DB) : Op → DB
  | Op.push id phase text error => push db id phase text error
  | Op.markResolved id => mark_resolved db id

/-- Apply a sequence of mutating operations. -/
def applyOps (db : DB) (ops : List Op) : DB :=
  ops.foldl applyOp db

/-- Whether an operation is a `push` of the given id. -/
def Op.pushes (id : List Char) : Op → Prop
  | Op.push id' _ _ _ => id' = id
  | Op.markResolved _ => False

instance (id : List Char) (op : Op) : Decidable (op.pushes id) := by
  cases op <;> simp [Op.pushes] <;> infer_instance

end Book.DLQ

/-! ## Segmenter (`src/chunker.py`) -/

namespace Book.Chunker

open Book

/-- Python `text.split("\n\n")`: greedy left-to-right split on the blank-line
separator.  Always returns at least one (possibly empty) piece. -/
def splitOn2NL : List Char → List (List Char)
  | '\n' :: '\n' :: rest => [] :: splitOn2NL rest
  | c :: rest =>
    match splitOn2NL rest with
    | [] => [[c]]
    | h :: t => (c :: h) :: t
  | [] => [[]]

/-- Python `"\n\n".join(pieces)`. -/
def join2NL : List (List Char) → List Char
  | [] => []
  | [p] => p
  | p :: ps => p ++ str "\n\n" ++ join2NL ps

/-- The heading keywords of strategy A (chunker.py:24-28). -/
def chapterKeywords : List (List Char) :=
  [str "Chapter ", str "CHAPTER ", str "Unit ", str "UNIT ",
   str "Module ", str "MODULE ", str "Part ", str "PART "]

/-- Does one of the strategy-A heading keywords start here?  Models the
lookahead `(?=^(?:Chapter |...))` at a line start. -/
def atChapterHead (l : List Char) : Bool :=
  chapterKeywords.any (fun kw => startsWithL kw l)

/-- Does a numbered section marker `\d+\.\s+` start here?  Models the
lookahead `(?=^\d+\.\s+)` of strategy B (ASCII digits/whitespace; the
Unicode extras of Python's `\d`/`\s` do not occur in the manuscripts). -/
def atNumberedHead (l : List Char) : Bool :=
  (!(l.takeWhile Char.isDigit).isEmpty) &&
    (match l.dropWhile Char.isDigit with
     | '.' :: c :: _ => pyIsSpace c
     | _ => false)

/-- Scanner for `re.split` on a zero-width line-start lookahead: cut before
every position that is at a line start (previous character `'\n'`, or the
very beginning) and satisfies `p`.  `acc` holds the current piece reversed. -/
def splitAtHeadsGo (p : List Char → Bool) (acc : List Char) (prev : Char) :
    List Char → List (List Char)
  | [] => [acc.reverse]
  | c :: rest =>
    if prev = '\n' && p (c :: rest) then
      acc.reverse :: splitAtHeadsGo p [c] c rest
    else
      splitAtHeadsGo p (c :: acc) c rest

/-- `re.split(r"(?=^<pattern>)", text, flags=re.MULTILINE)`. -/
def splitAtLineHeads (p : List Char → Bool) (l : List Char) : List (List Char) :=
  splitAtHeadsGo p [] '\n' l

/-- `[p.strip() for p in parts if p.strip()]` (chunker.py:29,35). -/
def stripFilter (ps : List (List Char)) : List (List Char) :=
  (ps.map pyStrip).filter (fun q => !q.isEmpty)

/-- `_split_by_chapter` (chunker.py:22-29). -/
def split_by_chapter (text : List Char) : List (List Char) :=
  stripFilter (splitAtLineHeads atChapterHead text)

/-- `_split_by_numbered_sections` (chunker.py:32-35). -/
def split_by_numbered_sections (text : List Char) : List (List Char) :=
  stripFilter (splitAtLineHeads atNumberedHead text)

/-- ASCII letter, the `[A-ZA-Za-z]` class of the sentence-split regex. -/
def isAsciiLetter (c : Char) : Bool :=
  ('A' ≤ c && c ≤ 'Z') || ('a' ≤ c && c ≤ 'z')

/-- Sentence-terminating punctuation, the `[.!?]` lookbehind class. -/
def isSentEnd (c : Char) : Bool :=
  c = '.' || c = '!' || c = '?'

/-- Does a sentence separator (`\s+` followed by a letter) start here? -/
def sepAt (l : List Char) : Bool :=
  (match l with
   | c :: _ => pyIsSpace c
   | [] => false) &&
  (match l.dropWhile pyIsSpace with
   | c :: _ => isAsciiLetter c
   | [] => false)

/-- Scanner for `re.split(r"(?<=[.!?])\s+(?=[A-ZA-Za-z])", para)`: cut after
each `.`/`!`/`?` that is followed by whitespace and then a letter, dropping
that whitespace run (the matched separator). -/
def sentGo (acc : List Char) : List Char → List (List Char)
  | [] => [acc.reverse]
  | c :: rest =>
    if isSentEnd c && sepAt rest then
      (acc.reverse ++ [c]) :: sentGo [] (rest.dropWhile pyIsSpace)
    else
      sentGo (c :: acc) rest
termination_by l => l.length
decreasing_by
  · have h : ∀ m : List Char, (m.dropWhile pyIsSpace).length ≤ m.length := by
      intro m
      induction m with
      | nil => simp
      | cons a t ih =>
        by_cases hp : pyIsSpace a
        · simp only [List.dropWhile, hp, List.length_cons]
          omega
        · simp [List.dropWhile, hp]
    simp only [List.length_cons]
    have := h rest
    omega
  · simp

/-- The sentence list of a paragraph (chunker.py:67). -/
def sentenceSplit (para : List Char) : List (List Char) :=
  sentGo [] para

/-- `sentence[i : i + max_chars]` pieces (chunker.py:79-80).  Python's
`range` raises on step 0, so `n = 0` (excluded by the theorems' `0 < n`
hypothesis) returns junk. -/
def chunkEvery (n : Nat) (l : List Char) : List (List Char) :=
  match n, l with
  | 0, _ => []
  | _, [] => []
  | n + 1, c :: rest => (c :: rest.take n) :: chunkEvery (n + 1) (rest.drop n)
termination_by l.length
decreasing_by
  simp only [List.length_cons, List.length_drop]
  omega

/-- One step of the inner sentence loop (chunker.py:69-82): the state is
(chunks emitted so far, `para_current`). -/
def procSentence (maxChars : Nat) (st : List (List Char) × List Char)
    (s : List Char) : List (List Char) × List Char :=
  if st.2.length + s.length + 1 ≤ maxChars then
    (st.1, st.2 ++ pyStrip (s ++ [' ']))
  else
    let chunks1 := if st.2.isEmpty then st.1 else st.1 ++ [pyStrip st.2]
    if maxChars < s.length then
      (chunks1 ++ chunkEvery maxChars s, [])
    else
      (chunks1, s ++ [' '])

/-- The whole sentence-level handling of one oversized paragraph
(chunker.py:66-84), including the final `para_current` flush. -/
def procBigPara (maxChars : Nat) (para : List Char) : List (List Char) :=
  let st := (sentenceSplit para).foldl (procSentence maxChars) ([], [])
  st.1 ++ (if st.2.isEmpty then [] else [pyStrip st.2])

/-- State of the outer paragraph loop of `_split_by_length`:
`chunks`, `current`, `current_len`. -/
structure SBL where
  chunks : List (List Char)
  current : List (List Char)
  currentLen : Nat
deriving Repr

/-- One step of the paragraph loop (chunker.py:48-88). -/
def procPara (maxChars : Nat) (st : SBL) (para : List Char) : SBL :=
  if st.currentLen + para.length ≤ maxChars then
    { st with current := st.current ++ [para],
              currentLen := st.currentLen + para.length + 2 }
  else
    let flushed := if st.current.isEmpty then st.chunks
                   else st.chunks ++ [join2NL st.current]
    if maxChars < para.length then
      { chunks := flushed ++ procBigPara maxChars para,
        current := [], currentLen := 0 }
    else
      { chunks := flushed, current := [para], currentLen := para.length + 2 }

/-- `_split_by_length` (chunker.py:38-93). -/
def split_by_length (text : List Char) (maxChars : Nat) : List (List Char) :=
  let st := (splitOn2NL text).foldl (procPara maxChars) ⟨[], [], 0⟩
  st.chunks ++ (if st.current.isEmpty then [] else [join2NL st.current])

/-- The cascading strategy choice of `chunk_manuscript` (chunker.py:122-132):
chapter split, else numbered-section split, else the whole text. -/
def strategyChunks (text : List Char) : List (List Char) :=
  let a := split_by_chapter text
  if 1 < a.length then a
  else
    let b := split_by_numbered_sections text
    if 1 < b.length then b
    else [text]

/-- `chunk_manuscript` (chunker.py:96-148) applied to the file's text:
hard-split every strategy chunk still above `maxChars`. -/
def chunk_manuscript (text : List Char) (maxChars : Nat) : List (List Char) :=
  (strategyChunks text).flatMap fun c =>
    if maxChars < c.length then split_by_length c maxChars else [c]

/-- Concatenation of the non-whitespace content of a list of pieces; the
order-preservation statement for the segmenter. -/
def rwsJoin (ls : List (List Char)) : List Char :=
  (ls.map removeWS).flatten

end Book.Chunker

/-! ## Per-unit state machine (`src/graph.py`, `src/agents.py`) -/

namespace Book.Graph

open Book

/-- `MAX_REVISIONS = 3` (graph.py:20). -/
def MAX_REVISIONS : Nat := 3

/-- `feedback.upper().startswith("APPROVED")` (graph.py:36). -/
def approves (feedback : List Char) : Bool :=
  startsWithL (str "APPROVED") (pyUpper feedback)

/-- Where `_should_revise` (graph.py:26-43) routes after a critic review:
`END` on approval or on hitting the revision cap, otherwise back to the
drafter. -/
inductive Route where
  | toEnd
  | toDrafter
deriving DecidableEq, Repr

/-- `_should_revise` as a function of the two state fields it reads. -/
def should_revise (feedback : List Char) (revisionCount : Nat) : Route :=
  if approves feedback then Route.toEnd
  else if MAX_REVISIONS ≤ revisionCount then Route.toEnd
  else Route.toDrafter

/-- The review outcome of one critic pass, as the spec names it:
`Accepted` on approval, `Exhausted` when `_should_revise` ends the loop at
the revision cap, otherwise `Revising` carrying the feedback. -/
inductive Outcome where
  | accepted
  | exhausted
  | revising (feedback : List Char)
deriving DecidableEq, Repr

/-- The outcome a feedback string produces at a given revision count. -/
def reviewOutcome (feedback : List Char) (revisionCount : Nat) : Outcome :=
  if approves feedback then Outcome.accepted
  else if MAX_REVISIONS ≤ revisionCount then Outcome.exhausted
  else Outcome.revising feedback

/-- The drafter → critic → route loop of the compiled graph, starting after
the analyst.  `drafts n` is the text the drafter produces on its `n`-th call
(every return path of `drafter_node`, agents.py:370-540, sets
`revision_count = state.get("revision_count", 0) + 1`, so the `n`-th call
runs at revision count `n`); `reviews n` is the feedback `critic_node`
stores after that draft.  Runs on explicit fuel; returns
`(final revision_count, final draft)` or `none` if the fuel ran out. -/
def loopFrom (drafts reviews : Nat → List Char) :
    Nat → Nat → Option (Nat × List Char)
  | 0, _ => none
  | fuel + 1, r =>
    let draft := drafts (r + 1)
    let fb := reviews (r + 1)
    match should_revise fb (r + 1) with
    | Route.toEnd => some (r + 1, draft)
    | Route.toDrafter => loopFrom drafts reviews fuel (r + 1)

/-- A whole graph run: `process_chunk` seeds `revision_count = 0`
(main.py:305-312). -/
def runGraph (drafts reviews : Nat → List Char) (fuel : Nat) :
    Option (Nat × List Char) :=
  loopFrom drafts reviews fuel 0

end Book.Graph

/-! ## Critic node (`src/agents.py:573-717`) -/

namespace Book.Agents

open Book

/-- What the remote critic call produced, seen from `critic_node`'s
error handling:  every constructor except `ok` is one of the failure paths
of agents.py:631-707. -/
inductive RemoteResult where
  | netFailExhausted
  | noApiKey
  | raisedError (msg : List Char)
  | invalidResponse
  | emptyContent
  | ok (content : List Char)
deriving DecidableEq, Repr

/-- The critic-service failure modes (everything but an actually returned
response). -/
def RemoteResult.isFailure : RemoteResult → Bool
  | RemoteResult.ok _ => false
  | _ => true

/-- The inputs `critic_node` reads from the graph state. -/
structure CriticInput where
  expanded : List Char
  original : List Char
  targetChars : Nat

/-- The low-effort rejection text (agents.py:594-601).  Python renders the
two sizes with thousands separators; the digits-only rendering used here
differs only inside the interpolated numbers. -/
def lowEffortRejection (nExpanded targetChars : Nat) : List Char :=
  str "LOW EFFORT: The expanded text is only " ++ str (Nat.repr nExpanded) ++
  str " characters long, which is below the strict requirement of " ++
  str (Nat.repr targetChars) ++
  str (" characters. You MUST produce a much longer expansion. " ++
    "Go deeper: add more derivations, more mirror problems with " ++
    "randomized values, more [NEW_DIAGRAM: ...] tags. " ++
    "Do not summarize — DERIVE and EXPAND.")

/-- The truncation rejection text (agents.py:611-615). -/
def truncationRejection : List Char :=
  str ("TRUNCATION DETECTED: The text abruptly cuts off at the very end. " ++
    "You likely hit the maximum output token limit. " ++
    "You MUST rewrite the ending to ensure it finishes its thought cleanly " ++
    "with proper punctuation or closing tags like \\end\x7bequation\x7d.")

/-- The artifact rejection text (agents.py:624). -/
def artifactRejection : List Char :=
  str "ARTIFACT DETECTED: Remove ```markdown code fences from the output."

/-- `clean_ends` (agents.py:609). -/
def clean_ends : List (List Char) :=
  [str ".", str "!", str "?", str "\"", str "'", str "```",
   str "\x7d", str "]", str ")", str "_", str "*"]

/-- The deterministic local checks that run before any remote call
(agents.py:583-626); `none` means all passed. -/
def localCheck (inp : CriticInput) : Option (List Char) :=
  if (pyStrip inp.expanded).isEmpty then some (str "APPROVED")
  else if (pyStrip inp.original).isEmpty then some (str "APPROVED")
  else if inp.expanded.length < inp.targetChars then
    some (lowEffortRejection inp.expanded.length inp.targetChars)
  else if !clean_ends.any (fun suf => endsWithL suf (pyStrip inp.expanded)) then
    some truncationRejection
  else if containsL (str "```markdown") inp.expanded ||
      startsWithL (str "```") (pyStrip inp.expanded) then
    some artifactRejection
  else none

/-- How `critic_node` turns the remote call's result into the stored
feedback (agents.py:628-717): every failure path returns `"APPROVED"`;
a returned response is stripped (`content.strip()`, agents.py:704),
with empty content also approving. -/
def remotePhase : RemoteResult → List Char
  | RemoteResult.ok content =>
      if content.isEmpty then str "APPROVED" else pyStrip content
  | _ => str "APPROVED"

/-- `critic_node` as a function of its state inputs and the remote result:
the feedback it writes into the graph state. -/
def critic_node (inp : CriticInput) (remote : RemoteResult) : List Char :=
  match localCheck inp with
  | some fb => fb
  | none => remotePhase remote

end Book.Agents

/-! ## Bounded scheduler with per-unit checkpoints (`main.py:277-431`) -/

namespace Book.Scheduler

open Book

/-- The per-unit checkpoint directory `expanded_chunks/`: unit index ↦
stored text of `chunk_{i:04d}.md`, if present. -/
def Store := Nat → Option (List Char)

/-- Writing one per-unit checkpoint file. -/
def Store.set (s : Store) (i : Nat) (v : List Char) : Store :=
  fun j => if j = i then some v else s j

/-- `process_chunk(sem, i, chunk)` (main.py:277-404).  `pipeline i chunk` is
the per-unit state-machine run behind the semaphore (`graph.ainvoke` plus
the fallback extraction of main.py:315-400); it returns the expanded text
and the number of remote generation-service calls it made.  If the per-unit
checkpoint exists the unit is skipped before anything else happens
(main.py:279-281): the stored text is returned and no remote call is made.
Otherwise an empty/whitespace chunk short-circuits without remote calls
(main.py:289-291), the pipeline runs for the rest, and the result is always
written to the checkpoint (main.py:403). -/
def process_chunk (pipeline : Nat → List Char → List Char × Nat)
    (st : Store) (i : Nat) (chunk : List Char) : List Char × Store × Nat :=
  match st i with
  | some t => (t, st, 0)
  | none =>
    let r := if (pyStrip chunk).isEmpty then (chunk, 0) else pipeline i chunk
    (r.1, st.set i r.1, r.2)

/-- Drive the units in index order, threading the checkpoint store and
summing remote calls.  Each unit only reads and writes its own checkpoint
index, so this sequential fold is also faithful to the
`asyncio.gather` fan-out of `run_phase_2` (main.py:406-423), whose fan-in
is by original index. -/
def runOn (pipeline : Nat → List Char → List Char × Nat) :
    Store → Nat → List (List Char) → List (List Char) × Store × Nat
  | st, _, [] => ([], st, 0)
  | st, i, c :: cs =>
    let r := process_chunk pipeline st i c
    let rest := runOn pipeline r.2.1 (i + 1) cs
    (r.1 :: rest.1, rest.2.1, r.2.2 + rest.2.2)

/-- One whole Phase-2 scheduler pass over the unit list. -/
def run_phase_2 (pipeline : Nat → List Char → List Char × Nat)
    (st : Store) (chunks : List (List Char)) :
    List (List Char) × Store × Nat :=
  runOn pipeline st 0 chunks

end Book.Scheduler

/-! ## Fresh-run purge (`main.py:128-159`) -/

namespace Book.Purge

/-- A path inside the output directory, as its list of components relative
to that directory (nonempty for any real file). -/
abbrev P := List String

/-- Whether `clear_with_exceptions` (main.py:139-156) leaves the file `f`
in place: it iterates only the top-level entries of the directory and skips
exactly the entries whose resolved path is one of the preserved paths, so a
file survives iff its top-level ancestor (itself, if it is a direct child)
is literally one of the preserved paths. -/
def keeps (preserved : List P) (f : P) : Bool :=
  match f with
  | [] => true
  | n :: _ => decide (([n] : List String) ∈ preserved)

/-- The purge of a fresh run: the files (given as component paths relative
to the output directory) still present afterwards. -/
def clear_with_exceptions (preserved : List P) (files : List P) : List P :=
  files.filter (keeps preserved)

end Book.Purge

/-! ## Event broker (`server/sse_manager.py`) -/

namespace Book.SSE

/-- One subscriber queue: `asyncio.Queue(maxsize=100)` holding the events
already enqueued. -/
structure Queue (E : Type) where
  maxsize : Nat
  items : List E
deriving DecidableEq, Repr

/-- The only exception `publish` can propagate: `await q.put_nowait(event)`
(sse_manager.py:49) awaits the `None` that `put_nowait` returns, which
raises `TypeError`; the `except asyncio.QueueFull` handler does not catch
it. -/
inductive PubErr where
  | typeError
deriving DecidableEq, Repr

/-- `SSEManager.publish` (sse_manager.py:42-51) over one run's subscriber
queues, in list order: a full queue raises `QueueFull` from `put_nowait`,
which is caught and the event dropped; a non-full queue receives the event,
after which `await None` raises `TypeError` and the iteration aborts.
Returns the queues after the call and the exception it raised, if any. -/
def publish {E : Type} (event : E) :
    List (Queue E) → List (Queue E) × Option PubErr
  | [] => ([], none)
  | q :: qs =>
    if q.items.length < q.maxsize then
      ({ q with items := q.items ++ [event] } :: qs, some PubErr.typeError)
    else
      let rest := publish event qs
      (q :: rest.1, rest.2)

end Book.SSE

/-! # Theorems -/

namespace Book.Phases

/-- Claim C3: a resumed run computes `start_phase` as the checkpointed
completed phase plus one; when that exceeds the last phase (4) the run
reports already-complete and performs no work; otherwise, for a checkpoint
at phase `k`, none of the phase bodies `1..k` are entered. -/
theorem C3_resume_skips_completed_phases (k : Nat) :
    computeStartPhase k = k + 1 ∧
    (4 ≤ k → resumeRun k = none) ∧
    (∀ l, resumeRun k = some l → ∀ i ∈ l, ¬(1 ≤ i ∧ i ≤ k)) := by
  refine ⟨rfl, ?_, ?_⟩
  · intro h
    simp only [resumeRun, computeStartPhase]
    rw [if_pos (by omega)]
  · intro l hl i hi
    have hk : ¬ 4 < k + 1 := by
      intro hc
      simp [resumeRun, computeStartPhase, if_pos hc] at hl
    have hl' : l = mainBodies (k + 1) := by
      simp only [resumeRun, computeStartPhase] at hl
      rw [if_neg hk] at hl
      exact (Option.some_inj.mp hl).symm
    subst hl'
    have hk3 : k ≤ 3 := by omega
    interval_cases k <;> simp_all [mainBodies] <;> omega

/-- Witness for C3: a checkpoint at phase 2 resumes with phases 3 and 4
only, and a checkpoint at phase 4 resumes as already complete. -/
theorem C3_witness :
    resumeRun 2 = some (mainBodies 3) ∧
    (∀ i ∈ mainBodies 3, ¬(1 ≤ i ∧ i ≤ 2)) ∧
    resumeRun 4 = none :=
  ⟨by decide,
   fun i hi => (C3_resume_skips_completed_phases 2).2.2 _ (by decide) i hi,
   (C3_resume_skips_completed_phases 4).2.1 (by decide)⟩

end Book.Phases

namespace Book.Purge

/-- Claim C4, counterexample: the purge of a fresh run preserves only paths
that are direct children of the output directory.  With the uploaded source
document at `sub/doc.pdf` inside the output tree, the file exists before the
purge and is gone afterwards (the whole top-level directory `sub` is removed
by `shutil.rmtree` because `sub` itself is not a preserved path). -/
theorem C4_subdir_preserved_file_deleted :
    (["sub", "doc.pdf"] : P) ∈ ([["sub", "doc.pdf"], ["jobs.json"]] : List P) ∧
    (["sub", "doc.pdf"] : P) ∉
      clear_with_exceptions [["sub", "doc.pdf"], ["jobs.json"]]
        [["sub", "doc.pdf"], ["jobs.json"]] := by
  constructor
  · decide
  · decide

/-- Claim C4, amended: a preserved file that is a direct child of the output
directory still exists after the fresh-run purge. -/
theorem C4_purge_keeps_top_level_preserved (preserved files : List P) (p : P)
    (hp : p ∈ preserved) (hf : p ∈ files) (hl : p.length = 1) :
    p ∈ clear_with_exceptions preserved files := by
  refine List.mem_filter.mpr ⟨hf, ?_⟩
  match p, hl with
  | [n], _ =>
    simp only [keeps, decide_eq_true_eq]
    exact hp

/-- Witness for C4's amended theorem: `jobs.json`, a direct child of the
output directory, survives a purge that preserves it. -/
theorem C4_purge_witness :
    (["jobs.json"] : P) ∈ ([["input.pdf"], ["jobs.json"]] : List P) ∧
    (["jobs.json"] : P) ∈
      clear_with_exceptions [["input.pdf"], ["jobs.json"]]
        [["jobs.json"], ["expanded_chunks", "chunk_0000.md"]] :=
  ⟨by decide,
   C4_purge_keeps_top_level_preserved _ _ _ (by decide) (by decide) (by decide)⟩

end Book.Purge

namespace Book.SSE

/-- Claim C6 (code bug): with two subscribers whose queues are not full,
`publish` enqueues the event on the first queue and then raises `TypeError`
(from `await q.put_nowait(event)`), so the second subscriber never receives
the event and `publish` does not return normally; with a single full queue
the `QueueFull` branch drops the event and returns without raising. -/
theorem C6_publish_raises_type_error :
    publish (0 : Nat) [⟨100, []⟩, ⟨100, []⟩] =
      ([⟨100, [0]⟩, ⟨100, []⟩], some PubErr.typeError) ∧
    publish (0 : Nat) [⟨1, [7]⟩] = ([⟨1, [7]⟩], none) := by
  constructor
  · rfl
  · rfl

end Book.SSE

namespace Book.DLQ

/-- Claim C10, counterexample: `push` uses `INSERT OR REPLACE … status
'pending'`, so pushing the same id again after `mark_resolved` makes
`get_all("pending")` offer the record once more. -/
theorem C10_repush_reoffers_resolved :
    (get_all
        (push (mark_resolved (push [] (Book.str "a") 2 (Book.str "t") (Book.str "e"))
          (Book.str "a")) (Book.str "a") 2 (Book.str "t") (Book.str "e2"))
        Status.pending).map Prod.fst = [Book.str "a"] := by
  decide

end Book.DLQ

namespace Book.DLQ

/-- Any row keyed by `id` after `mark_resolved db id` is resolved. -/
theorem mark_resolved_resolves (db : DB) (id : List Char) (r : Rec)
    (h : (id, r) ∈ mark_resolved db id) : r.status = Status.resolved := by
  simp only [mark_resolved, List.mem_map] at h
  obtain ⟨row, _, hrow⟩ := h
  by_cases he : row.1 = id
  · rw [if_pos he] at hrow
    have h2 : { row.2 with status := Status.resolved } = r := congrArg Prod.snd hrow
    rw [← h2]
  · rw [if_neg he] at hrow
    exact absurd (congrArg Prod.fst hrow) he

/-- A non-`push id` operation keeps every `id` row resolved. -/
theorem applyOp_keeps_resolved (db : DB) (id : List Char) (op : Op)
    (hop : ¬ op.pushes id)
    (h : ∀ r : Rec, (id, r) ∈ db → r.status = Status.resolved) :
    ∀ r : Rec, (id, r) ∈ applyOp db op → r.status = Status.resolved := by
  intro r hr
  cases op with
  | push id' phase text error =>
    simp only [applyOp, push, List.mem_append, List.mem_filter,
      List.mem_singleton] at hr
    rcases hr with ⟨hin, _⟩ | heq
    · exact h r hin
    · exact absurd (congrArg Prod.fst heq).symm hop
  | markResolved id' =>
    simp only [applyOp, mark_resolved, List.mem_map] at hr
    obtain ⟨row, hrow, hres⟩ := hr
    by_cases he : row.1 = id'
    · rw [if_pos he] at hres
      have h2 : { row.2 with status := Status.resolved } = r := congrArg Prod.snd hres
      rw [← h2]
    · rw [if_neg he] at hres
      have h1 : row = (id, r) := hres
      exact h r (h1 ▸ hrow)

/-- A sequence of operations none of which re-pushes `id` keeps every `id`
row resolved. -/
theorem applyOps_keeps_resolved (ops : List Op) : ∀ (db : DB) (id : List Char),
    (∀ op ∈ ops, ¬ op.pushes id) →
    (∀ r : Rec, (id, r) ∈ db → r.status = Status.resolved) →
    ∀ r : Rec, (id, r) ∈ applyOps db ops → r.status = Status.resolved := by
  induction ops with
  | nil => intro db id _ h r hr; exact h r hr
  | cons op ops ih =>
    intro db id hops h r hr
    exact ih (applyOp db op) id (fun o ho => hops o (List.mem_cons_of_mem _ ho))
      (applyOp_keeps_resolved db id op (hops op (List.mem_cons_self _ _)) h) r hr

/-- Claim C10, amended: after `mark_resolved(id)`, and as long as the same
id is not pushed to the store again, every row for that id stays
`resolved` and no subsequent `get_all("pending")` offers it.  (A new
`push` of the same id resets the row to `pending`, see the
counterexample.) -/
theorem C10_resolved_stays_off_pending (db : DB) (id : List Char)
    (ops : List Op) (hops : ∀ op ∈ ops, ¬ op.pushes id) :
    (∀ r : Rec, (id, r) ∈ applyOps (mark_resolved db id) ops →
      r.status = Status.resolved) ∧
    (∀ r : Rec, (id, r) ∉ get_all (applyOps (mark_resolved db id) ops)
      Status.pending) := by
  have hres : ∀ r : Rec, (id, r) ∈ applyOps (mark_resolved db id) ops →
      r.status = Status.resolved :=
    applyOps_keeps_resolved ops (mark_resolved db id) id hops
      (mark_resolved_resolves db id)
  refine ⟨hres, fun r hr => ?_⟩
  simp only [get_all, List.mem_filter, decide_eq_true_eq] at hr
  have := hres r hr.1
  rw [this] at hr
  exact absurd hr.2 (by decide)

/-- Witness for C10's amended theorem: with record `a` resolved and a later
`push` of `b` plus a `mark_resolved` of `c`, the resolved `a` row is not in
the pending list. -/
theorem C10_resolved_stays_off_pending_witness :
    (∀ op ∈ [Op.push (Book.str "b") 4 (Book.str "u") (Book.str "f"),
             Op.markResolved (Book.str "c")], ¬ Op.pushes (Book.str "a") op) ∧
    (Book.str "a", ⟨2, Book.str "t", Book.str "e", 0, Status.resolved⟩) ∉
      get_all
        (applyOps
          (mark_resolved (push [] (Book.str "a") 2 (Book.str "t") (Book.str "e"))
            (Book.str "a"))
          [Op.push (Book.str "b") 4 (Book.str "u") (Book.str "f"),
           Op.markResolved (Book.str "c")])
        Status.pending :=
  ⟨by decide,
   (C10_resolved_stays_off_pending _ _ _ (by decide)).2 _⟩

end Book.DLQ

namespace Book.Graph

open Book

/-- Below the cap and with every review rejecting, the loop runs to exactly
`MAX_REVISIONS` and accepts the last draft. -/
theorem loopFrom_rejecting (drafts reviews : Nat → List Char)
    (hrej : ∀ n, approves (reviews n) = false) :
    ∀ (fuel r : Nat), r < MAX_REVISIONS → MAX_REVISIONS - r ≤ fuel →
    loopFrom drafts reviews fuel r =
      some (MAX_REVISIONS, drafts MAX_REVISIONS) := by
  intro fuel
  induction fuel with
  | zero => intro r h1 h2; omega
  | succ fuel ih =>
    intro r h1 h2
    simp only [loopFrom, should_revise, hrej, if_false, Bool.false_eq_true]
    by_cases hc : MAX_REVISIONS ≤ r + 1
    · have he : r + 1 = MAX_REVISIONS := by
        simp only [MAX_REVISIONS] at *
        omega
      rw [if_pos hc, he]
    · simp only [if_neg hc]
      exact ih (r + 1) (by omega) (by omega)

/-- Claim C2: if the critic rejects on every review (no feedback starts
with the approval token), the plan/draft/critique loop terminates with
`revision_count` exactly `MAX_REVISIONS` (3): the router exits at the cap,
keeping the last draft produced as the unit's result. -/
theorem C2_always_rejecting_critic_hits_cap
    (drafts reviews : Nat → List Char)
    (hrej : ∀ n, approves (reviews n) = false)
    (fuel : Nat) (hf : MAX_REVISIONS ≤ fuel) :
    runGraph drafts reviews fuel =
      some (MAX_REVISIONS, drafts MAX_REVISIONS) :=
  loopFrom_rejecting drafts reviews hrej fuel 0 (by decide) (by omega)

/-- Witness for C2: a critic that always answers `"REVISE: fix"` ends the
loop after exactly three drafter calls, keeping the third draft. -/
theorem C2_witness :
    (∀ _ : Nat, approves (str "REVISE: fix") = false) ∧
    runGraph (fun _ => str "final draft") (fun _ => str "REVISE: fix") 3 =
      some (MAX_REVISIONS, str "final draft") :=
  ⟨fun _ => by decide,
   C2_always_rejecting_critic_hits_cap _ _ (fun _ => by decide) 3 (by decide)⟩

end Book.Graph

namespace Book.Agents

open Book

/-- Claim C7: once the review step reaches the remote critic call (all
local checks passed), every critic-service failure — exhausted network
retries, missing API key, any other exception, a malformed response or
empty content — yields the feedback `"APPROVED"`, whose review outcome is
`Accepted` at every revision count, never `Revising`. -/
theorem C7_critic_failure_fails_open (inp : CriticInput)
    (remote : RemoteResult) (rc : Nat)
    (hlocal : localCheck inp = none) (hfail : remote.isFailure = true) :
    critic_node inp remote = str "APPROVED" ∧
    Graph.reviewOutcome (critic_node inp remote) rc = Graph.Outcome.accepted := by
  have h1 : critic_node inp remote = str "APPROVED" := by
    simp only [critic_node, hlocal]
    cases remote <;> first
      | rfl
      | simp [RemoteResult.isFailure] at hfail
  refine ⟨h1, ?_⟩
  rw [h1]
  have h2 : Graph.approves (str "APPROVED") = true := by decide
  simp [Graph.reviewOutcome, h2]

/-- Witness for C7: a draft passing all local checks combined with a
network-failure critic call is accepted. -/
theorem C7_critic_failure_fails_open_witness :
    localCheck ⟨str "Good text.", str "orig", 5⟩ = none ∧
    RemoteResult.netFailExhausted.isFailure = true ∧
    critic_node ⟨str "Good text.", str "orig", 5⟩ RemoteResult.netFailExhausted =
      str "APPROVED" ∧
    Graph.reviewOutcome
      (critic_node ⟨str "Good text.", str "orig", 5⟩ RemoteResult.netFailExhausted)
      0 = Graph.Outcome.accepted :=
  ⟨by decide, rfl,
   (C7_critic_failure_fails_open ⟨str "Good text.", str "orig", 5⟩
     RemoteResult.netFailExhausted 0 (by decide) rfl).1,
   (C7_critic_failure_fails_open ⟨str "Good text.", str "orig", 5⟩
     RemoteResult.netFailExhausted 0 (by decide) rfl).2⟩

/-- Claim C8, counterexample: the code strips and upper-cases the critic's
response before testing the approval token, so a response that does NOT
begin with the literal `"APPROVED"` — here `"approved fine."` — is
nonetheless Accepted: the claimed "Accepted iff the response begins with
the fixed literal token" is false on the code. -/
theorem C8_lowercase_approval_still_accepted :
    startsWithL (str "APPROVED") (str "approved fine.") = false ∧
    critic_node ⟨str "Good text.", str "orig", 5⟩
      (RemoteResult.ok (str "approved fine.")) = str "approved fine." ∧
    Graph.reviewOutcome (str "approved fine.") 1 = Graph.Outcome.accepted := by
  refine ⟨by decide, by decide, by decide⟩

/-- Claim C8, amended: for a response actually returned by the critic
service (non-empty content, local checks passed), the stored feedback is
the stripped response, and — below the revision cap — the review outcome
is `Accepted` iff the stripped, upper-cased response begins with
`"APPROVED"`, and `Revising` carrying the stripped response otherwise. -/
theorem C8_outcome_iff_upper_approved (inp : CriticInput)
    (content : List Char) (rc : Nat)
    (hlocal : localCheck inp = none) (hne : content ≠ [])
    (hcap : rc < Graph.MAX_REVISIONS) :
    critic_node inp (RemoteResult.ok content) = pyStrip content ∧
    (Graph.approves (pyStrip content) = true →
      Graph.reviewOutcome (critic_node inp (RemoteResult.ok content)) rc =
        Graph.Outcome.accepted) ∧
    (Graph.approves (pyStrip content) = false →
      Graph.reviewOutcome (critic_node inp (RemoteResult.ok content)) rc =
        Graph.Outcome.revising (pyStrip content)) := by
  have h1 : critic_node inp (RemoteResult.ok content) = pyStrip content := by
    simp only [critic_node, hlocal, remotePhase]
    rw [if_neg (by simpa using hne)]
  refine ⟨h1, ?_, ?_⟩ <;> intro ha <;> rw [h1] <;>
    simp [Graph.reviewOutcome, ha, Nat.not_le_of_lt hcap]

/-- Witness for C8's amended theorem: the stripped-and-upper-cased test
accepts `"  APPROVED Looks good."` and sends `"Needs work."` back for
revision. -/
theorem C8_outcome_iff_upper_approved_witness :
    localCheck ⟨str "Good text.", str "orig", 5⟩ = none ∧
    Graph.reviewOutcome
      (critic_node ⟨str "Good text.", str "orig", 5⟩
        (RemoteResult.ok (str "  APPROVED Looks good."))) 1 =
      Graph.Outcome.accepted ∧
    Graph.reviewOutcome
      (critic_node ⟨str "Good text.", str "orig", 5⟩
        (RemoteResult.ok (str "Needs work."))) 1 =
      Graph.Outcome.revising (pyStrip (str "Needs work.")) :=
  ⟨by decide,
   (C8_outcome_iff_upper_approved _ _ 1 (by decide) (by decide) (by decide)).2.1
     (by decide),
   (C8_outcome_iff_upper_approved _ _ 1 (by decide) (by decide) (by decide)).2.2
     (by decide)⟩

end Book.Agents

namespace Book.Scheduler

open Book

/-- Indices below the starting index are untouched by a scheduler pass. -/
theorem runOn_store_lt (pipeline : Nat → List Char → List Char × Nat) :
    ∀ (cs : List (List Char)) (st : Store) (i j : Nat), j < i →
    (runOn pipeline st i cs).2.1 j = st j := by
  intro cs
  induction cs with
  | nil => intro st i j _; rfl
  | cons c cs ih =>
    intro st i j h
    show (runOn pipeline (process_chunk pipeline st i c).2.1 (i + 1) cs).2.1 j = st j
    rw [ih _ (i + 1) j (by omega)]
    simp only [process_chunk]
    cases hst : st i with
    | some t => rfl
    | none =>
      simp only [Store.set]
      rw [if_neg (by omega)]

/-- `process_chunk` leaves its own checkpoint holding exactly its result. -/
theorem process_chunk_writes (pipeline : Nat → List Char → List Char × Nat)
    (st : Store) (i : Nat) (c : List Char) :
    (process_chunk pipeline st i c).2.1 i = some (process_chunk pipeline st i c).1 := by
  simp only [process_chunk]
  cases hst : st i with
  | some t => exact hst
  | none => simp [Store.set]

/-- A unit with an existing checkpoint is returned from the store with no
pipeline invocation and no store change. -/
theorem process_chunk_skip (pipeline : Nat → List Char → List Char × Nat)
    (st : Store) (i : Nat) (c t : List Char) (h : st i = some t) :
    process_chunk pipeline st i c = (t, st, 0) := by
  simp only [process_chunk, h]

/-- Re-running the scheduler over the store a first pass produced returns
the same results, the same store, and makes zero remote calls. -/
theorem runOn_idempotent (pipeline : Nat → List Char → List Char × Nat) :
    ∀ (cs : List (List Char)) (st : Store) (i : Nat),
    runOn pipeline (runOn pipeline st i cs).2.1 i cs =
      ((runOn pipeline st i cs).1, (runOn pipeline st i cs).2.1, 0) := by
  intro cs
  induction cs with
  | nil => intro st i; rfl
  | cons c cs ih =>
    intro st i
    have hfirst : (runOn pipeline (process_chunk pipeline st i c).2.1 (i + 1) cs).2.1 i =
        some (process_chunk pipeline st i c).1 := by
      rw [runOn_store_lt pipeline cs _ (i + 1) i (by omega)]
      exact process_chunk_writes pipeline st i c
    have hskip : process_chunk pipeline
        (runOn pipeline (process_chunk pipeline st i c).2.1 (i + 1) cs).2.1 i c =
        ((process_chunk pipeline st i c).1,
         (runOn pipeline (process_chunk pipeline st i c).2.1 (i + 1) cs).2.1, 0) :=
      process_chunk_skip pipeline _ i c _ hfirst
    simp only [runOn]
    rw [hskip]
    rw [ih (process_chunk pipeline st i c).2.1 (i + 1)]
    rfl

/-- Claim C1: a unit whose per-unit checkpoint exists is skipped entirely —
its stored text is returned verbatim, the store is unchanged and zero
remote calls are made — and a second scheduler pass over the same unit list
with no checkpoints cleared makes zero remote calls in total and returns
exactly the first pass's results. -/
theorem C1_checkpoint_skip_and_idempotence
    (pipeline : Nat → List Char → List Char × Nat) (st : Store)
    (chunks : List (List Char)) (i : Nat) (c t : List Char)
    (h : st i = some t) :
    process_chunk pipeline st i c = (t, st, 0) ∧
    (run_phase_2 pipeline (run_phase_2 pipeline st chunks).2.1 chunks).2.2 = 0 ∧
    (run_phase_2 pipeline (run_phase_2 pipeline st chunks).2.1 chunks).1 =
      (run_phase_2 pipeline st chunks).1 := by
  refine ⟨by simp [process_chunk, h], ?_, ?_⟩ <;>
    simp [run_phase_2, runOn_idempotent pipeline chunks st 0]

/-- Witness for C1: with unit 0 already checkpointed as `"done"`, the
scheduler skips it and a second pass over two units is free and identical. -/
theorem C1_checkpoint_skip_and_idempotence_witness :
    (Store.set (fun _ => none) 0 (str "done")) 0 = some (str "done") ∧
    (process_chunk (fun _ c => (c ++ str "!", 1))
        (Store.set (fun _ => none) 0 (str "done")) 0 (str "a") =
      (str "done", Store.set (fun _ => none) 0 (str "done"), 0) ∧
    (run_phase_2 (fun _ c => (c ++ str "!", 1))
        (run_phase_2 (fun _ c => (c ++ str "!", 1))
          (Store.set (fun _ => none) 0 (str "done"))
          [str "a", str "b"]).2.1
        [str "a", str "b"]).2.2 = 0 ∧
    (run_phase_2 (fun _ c => (c ++ str "!", 1))
        (run_phase_2 (fun _ c => (c ++ str "!", 1))
          (Store.set (fun _ => none) 0 (str "done"))
          [str "a", str "b"]).2.1
        [str "a", str "b"]).1 =
      (run_phase_2 (fun _ c => (c ++ str "!", 1))
        (Store.set (fun _ => none) 0 (str "done"))
        [str "a", str "b"]).1) :=
  ⟨rfl, C1_checkpoint_skip_and_idempotence _ _ _ 0 (str "a") (str "done") rfl⟩

end Book.Scheduler

namespace Book.Chunker

open Book

/-- `dropWhile` never lengthens a list. -/
theorem dropWhile_length_le (p : Char → Bool) (l : List Char) :
    (l.dropWhile p).length ≤ l.length := by
  induction l with
  | nil => simp
  | cons a t ih =>
    by_cases hp : p a
    · simp only [List.dropWhile, hp, List.length_cons]
      omega
    · simp [List.dropWhile, hp]

/-- `removeWS` distributes over append. -/
theorem removeWS_append (a b : List Char) :
    removeWS (a ++ b) = removeWS a ++ removeWS b := by
  simp [removeWS]

/-- Dropping leading whitespace does not change the non-whitespace content. -/
theorem removeWS_dropWhile (l : List Char) :
    removeWS (l.dropWhile pyIsSpace) = removeWS l := by
  induction l with
  | nil => rfl
  | cons a t ih =>
    by_cases hp : pyIsSpace a
    · simpa [List.dropWhile, hp, removeWS] using ih
    · simp [List.dropWhile, hp]

/-- `removeWS` commutes with `reverse`. -/
theorem removeWS_reverse (l : List Char) :
    removeWS l.reverse = (removeWS l).reverse := by
  simp [removeWS, List.filter_reverse]

/-- Stripping does not change the non-whitespace content. -/
theorem removeWS_pyStrip (l : List Char) :
    removeWS (pyStrip l) = removeWS l := by
  simp [pyStrip, removeWS_reverse, removeWS_dropWhile]

/-- Stripping never lengthens a string. -/
theorem pyStrip_length_le (l : List Char) : (pyStrip l).length ≤ l.length := by
  simp only [pyStrip, List.length_reverse]
  calc ((l.dropWhile pyIsSpace).reverse.dropWhile pyIsSpace).length
      ≤ (l.dropWhile pyIsSpace).reverse.length := dropWhile_length_le _ _
    _ = (l.dropWhile pyIsSpace).length := List.length_reverse _
    _ ≤ l.length := dropWhile_length_le _ _

/-- A string with some non-whitespace character does not strip to empty. -/
theorem pyStrip_ne_nil (l : List Char) (h : removeWS l ≠ []) :
    pyStrip l ≠ [] := by
  intro he
  exact h (by rw [← removeWS_pyStrip, he]; rfl)

/-- The non-whitespace content of a blank-line join is that of its pieces. -/
theorem removeWS_join2NL (ps : List (List Char)) :
    removeWS (join2NL ps) = rwsJoin ps := by
  induction ps with
  | nil => rfl
  | cons p ps ih =>
    cases ps with
    | nil => simp [join2NL, rwsJoin]
    | cons q ps' =>
      have hsep : removeWS (str "\n\n") = [] := rfl
      simp only [join2NL, removeWS_append, hsep, rwsJoin, List.map_cons,
        List.flatten_cons, List.append_nil] at *
      rw [ih]

/-- Appending one more piece to a nonempty join. -/
theorem join2NL_append_singleton (xs : List (List Char)) (p : List Char)
    (h : xs ≠ []) :
    join2NL (xs ++ [p]) = join2NL xs ++ str "\n\n" ++ p := by
  induction xs with
  | nil => exact absurd rfl h
  | cons x xs ih =>
    cases xs with
    | nil => rfl
    | cons y ys =>
      have h2 := ih (by simp)
      rw [List.cons_append] at h2 ⊢
      rw [List.cons_append]
      show x ++ str "\n\n" ++ join2NL (y :: (ys ++ [p])) = _
      rw [h2]
      simp [join2NL, List.append_assoc]

/-- Length of a nonempty blank-line join. -/
theorem join2NL_append_singleton_length (xs : List (List Char)) (p : List Char)
    (h : xs ≠ []) :
    (join2NL (xs ++ [p])).length = (join2NL xs).length + 2 + p.length := by
  rw [join2NL_append_singleton xs p h]
  simp [str]
  omega

/-- A join of nonempty pieces is nonempty. -/
theorem join2NL_ne_nil (ps : List (List Char)) (h1 : ps ≠ [])
    (h2 : ∀ p ∈ ps, p ≠ []) : join2NL ps ≠ [] := by
  cases ps with
  | nil => exact absurd rfl h1
  | cons p ps' =>
    cases ps' with
    | nil => exact h2 p (by simp)
    | cons q ps'' =>
      simp only [join2NL]
      intro he
      rcases List.append_eq_nil.mp (List.append_eq_nil.mp he).1 with ⟨hp, hsep⟩
      exact absurd hsep (by simp [str])

/-- `splitOn2NL` always yields at least one piece. -/
theorem splitOn2NL_ne_nil (l : List Char) : splitOn2NL l ≠ [] := by
  induction l using splitOn2NL.induct with
  | case1 rest ih => simp [splitOn2NL]
  | case2 c rest hne hnil ih => exact absurd hnil ih
  | case3 c rest hne h t hsplit ih =>
    simp [splitOn2NL.eq_2 c rest hne, hsplit]
  | case4 => simp [splitOn2NL]

/-- Joining the blank-line split with the separator restores the string. -/
theorem join2NL_splitOn2NL (l : List Char) : join2NL (splitOn2NL l) = l := by
  induction l using splitOn2NL.induct with
  | case1 rest ih =>
    have hne := splitOn2NL_ne_nil rest
    obtain ⟨s0, S', hS⟩ := List.exists_cons_of_ne_nil hne
    show join2NL ([] :: splitOn2NL rest) = _
    rw [hS]
    rw [hS] at ih
    simp only [join2NL]
    rw [ih]
    rfl
  | case2 c rest hne hnil ih => exact absurd hnil (splitOn2NL_ne_nil rest)
  | case3 c rest hne h t hsplit ih =>
    have hstep : splitOn2NL (c :: rest) = (c :: h) :: t := by
      rw [splitOn2NL.eq_2 c rest hne, hsplit]
    rw [hstep]
    rw [hsplit] at ih
    cases t with
    | nil =>
      simp only [join2NL] at ih ⊢
      rw [ih]
    | cons t0 ts =>
      simp only [join2NL, List.cons_append] at ih ⊢
      rw [← ih]
  | case4 => rfl

/-- Split a conjunction of booleans. -/
theorem andE {a b : Bool} (h : (a && b) = true) : a = true ∧ b = true := by
  cases a <;> cases b <;> simp_all

/-- The line-start splitter partitions the input exactly. -/
theorem flatten_splitAtHeadsGo (p : List Char → Bool) :
    ∀ (l acc : List Char) (prev : Char),
    (splitAtHeadsGo p acc prev l).flatten = acc.reverse ++ l := by
  intro l
  induction l with
  | nil => intro acc prev; simp [splitAtHeadsGo]
  | cons c rest ih =>
    intro acc prev
    simp only [splitAtHeadsGo]
    by_cases hc : (prev = '\n' && p (c :: rest)) = true
    · rw [if_pos hc]
      simp [ih]
    · rw [if_neg hc]
      rw [ih]
      simp

/-- `re.split` on a zero-width lookahead loses nothing. -/
theorem flatten_splitAtLineHeads (p : List Char → Bool) (l : List Char) :
    (splitAtLineHeads p l).flatten = l := by
  simp [splitAtLineHeads, flatten_splitAtHeadsGo]

/-- Non-whitespace content of a concatenation, piecewise. -/
theorem removeWS_flatten (ls : List (List Char)) :
    removeWS ls.flatten = rwsJoin ls := by
  induction ls with
  | nil => rfl
  | cons a ls ih => simp [rwsJoin, removeWS_append, ih] at *

/-- Strip-and-drop-empties keeps the non-whitespace content. -/
theorem rwsJoin_stripFilter (ps : List (List Char)) :
    rwsJoin (stripFilter ps) = rwsJoin ps := by
  induction ps with
  | nil => rfl
  | cons p ps ih =>
    simp only [stripFilter] at ih
    by_cases hq : (pyStrip p).isEmpty
    · have h0 : pyStrip p = [] := by simpa using hq
      have h1 : removeWS p = [] := by rw [← removeWS_pyStrip, h0]; rfl
      simp only [stripFilter, List.map_cons, List.filter, hq, Bool.not_true]
      simp only [rwsJoin, List.map_cons, List.flatten_cons] at ih ⊢
      rw [ih, h1]
      simp
    · have hq' : (!(pyStrip p).isEmpty) = true := by simpa using hq
      simp only [stripFilter, List.map_cons, List.filter, hq']
      simp only [rwsJoin, List.map_cons, List.flatten_cons] at ih ⊢
      rw [removeWS_pyStrip, ih]

/-- Strip-and-drop-empties yields only nonempty pieces. -/
theorem stripFilter_ne_nil (ps : List (List Char)) :
    ∀ q ∈ stripFilter ps, q ≠ [] := by
  intro q hq
  have := (List.mem_filter.mp hq).2
  simpa using this

/-- The cascading strategy choice preserves the non-whitespace content. -/
theorem rwsJoin_strategyChunks (text : List Char) :
    rwsJoin (strategyChunks text) = removeWS text := by
  have ha : rwsJoin (split_by_chapter text) = removeWS text := by
    rw [split_by_chapter, rwsJoin_stripFilter, ← removeWS_flatten,
      flatten_splitAtLineHeads]
  have hb : rwsJoin (split_by_numbered_sections text) = removeWS text := by
    rw [split_by_numbered_sections, rwsJoin_stripFilter, ← removeWS_flatten,
      flatten_splitAtLineHeads]
  by_cases h1 : 1 < (split_by_chapter text).length
  · simp only [strategyChunks, if_pos h1]
    exact ha
  · by_cases h2 : 1 < (split_by_numbered_sections text).length
    · simp only [strategyChunks, if_neg h1, if_pos h2]
      exact hb
    · simp only [strategyChunks, if_neg h1, if_neg h2]
      simp [rwsJoin]

/-- On a nonempty input every strategy chunk is nonempty. -/
theorem strategyChunks_ne_nil (text : List Char) (h : text ≠ []) :
    ∀ c ∈ strategyChunks text, c ≠ [] := by
  intro c hc
  by_cases h1 : 1 < (split_by_chapter text).length
  · simp only [strategyChunks, if_pos h1] at hc
    exact stripFilter_ne_nil _ c hc
  · by_cases h2 : 1 < (split_by_numbered_sections text).length
    · simp only [strategyChunks, if_neg h1, if_pos h2] at hc
      exact stripFilter_ne_nil _ c hc
    · simp only [strategyChunks, if_neg h1, if_neg h2] at hc
      rw [List.mem_singleton.mp hc]
      exact h

/-- Sentence-ending punctuation is not whitespace. -/
theorem isSentEnd_not_ws (c : Char) (h : isSentEnd c = true) :
    pyIsSpace c = false := by
  simp only [isSentEnd, Bool.or_eq_true, decide_eq_true_eq] at h
  rcases h with (h | h) | h <;> subst h <;> decide

/-- A whitespace character is not an ASCII letter. -/
theorem ws_not_letter (c : Char) (h : pyIsSpace c = true) :
    isAsciiLetter c = false := by
  simp only [pyIsSpace, Bool.or_eq_true, decide_eq_true_eq] at h
  rcases h with ((((h | h) | h) | h) | h) | h <;> subst h <;> decide

/-- ASCII letters are not whitespace. -/
theorem isAsciiLetter_not_ws (c : Char) (h : isAsciiLetter c = true) :
    pyIsSpace c = false := by
  cases hws : pyIsSpace c
  · rfl
  · rw [ws_not_letter c hws] at h
    exact absurd h (by decide)

/-- A sentence separator is followed (after its whitespace run) by a
letter. -/
theorem sepAt_dropWhile (l : List Char) (h : sepAt l = true) :
    ∃ c t, l.dropWhile pyIsSpace = c :: t ∧ isAsciiLetter c = true := by
  have hb := (andE h).2
  cases hd : l.dropWhile pyIsSpace with
  | nil => rw [hd] at hb; exact absurd hb (by simp)
  | cons c t =>
    rw [hd] at hb
    exact ⟨c, t, rfl, hb⟩

/-- Unfolding of the sentence scanner at a separator. -/
theorem sentGo_cons_cut (acc : List Char) (c : Char) (rest : List Char)
    (h : (isSentEnd c && sepAt rest) = true) :
    sentGo acc (c :: rest) =
      (acc.reverse ++ [c]) :: sentGo [] (rest.dropWhile pyIsSpace) := by
  rw [sentGo.eq_2, if_pos h]

/-- Unfolding of the sentence scanner away from separators. -/
theorem sentGo_cons_keep (acc : List Char) (c : Char) (rest : List Char)
    (h : ¬ (isSentEnd c && sepAt rest) = true) :
    sentGo acc (c :: rest) = sentGo (c :: acc) rest := by
  rw [sentGo.eq_2, if_neg h]

/-- The sentence split preserves the non-whitespace content (the dropped
separators are whitespace runs). -/
theorem rwsJoin_sentGo :
    ∀ (acc l : List Char),
    rwsJoin (sentGo acc l) = removeWS acc.reverse ++ removeWS l := by
  intro acc l
  induction acc, l using sentGo.induct with
  | case1 acc => simp [sentGo, rwsJoin, removeWS]
  | case2 acc c rest hcut ih =>
    have hc := isSentEnd_not_ws c (andE hcut).1
    rw [sentGo_cons_cut acc c rest hcut]
    simp only [rwsJoin, List.map_cons, List.flatten_cons] at ih ⊢
    rw [ih, removeWS_dropWhile]
    simp [removeWS_append, removeWS, List.filter, hc, List.append_assoc]
  | case3 acc c rest hcut ih =>
    rw [sentGo_cons_keep acc c rest hcut]
    rw [ih]
    simp only [List.reverse_cons, removeWS_append]
    simp [removeWS, List.filter, List.append_assoc]
    cases hws : pyIsSpace c <;> simp

/-- The sentence split never returns an empty list of pieces. -/
theorem sentGo_ne_nil : ∀ (acc l : List Char), sentGo acc l ≠ [] := by
  intro acc l
  induction acc, l using sentGo.induct with
  | case1 acc => simp [sentGo]
  | case2 acc c rest hcut ih => rw [sentGo_cons_cut acc c rest hcut]; simp
  | case3 acc c rest hcut ih => rw [sentGo_cons_keep acc c rest hcut]; exact ih

/-- A one-piece sentence split returns the whole remaining text. -/
theorem sentGo_singleton :
    ∀ (acc l : List Char), (sentGo acc l).length = 1 →
    sentGo acc l = [acc.reverse ++ l] := by
  intro acc l
  induction acc, l using sentGo.induct with
  | case1 acc => simp [sentGo]
  | case2 acc c rest hcut ih =>
    intro hlen
    exfalso
    rw [sentGo_cons_cut acc c rest hcut] at hlen
    simp only [List.length_cons] at hlen
    have hne := sentGo_ne_nil [] (rest.dropWhile pyIsSpace)
    cases hs : sentGo [] (rest.dropWhile pyIsSpace) with
    | nil => exact hne hs
    | cons a b => rw [hs] at hlen; simp at hlen
  | case3 acc c rest hcut ih =>
    intro hlen
    rw [sentGo_cons_keep acc c rest hcut] at hlen ⊢
    rw [ih hlen]
    simp

/-- When the sentence split produces at least two pieces, every piece has
some non-whitespace character (each non-final piece ends in sentence
punctuation; each later piece starts with a letter). -/
theorem sentGo_multi_nonws :
    ∀ (acc l : List Char), 2 ≤ (sentGo acc l).length →
    ∀ s ∈ sentGo acc l, removeWS s ≠ [] := by
  intro acc l
  induction acc, l using sentGo.induct with
  | case1 acc => intro h; simp [sentGo] at h
  | case2 acc c rest hcut ih =>
    intro _ s hs
    have hc := isSentEnd_not_ws c (andE hcut).1
    rw [sentGo_cons_cut acc c rest hcut] at hs
    rcases List.mem_cons.mp hs with hhead | htail
    · subst hhead
      simp [removeWS_append, removeWS, List.filter, hc]
    · rcases Nat.lt_or_ge (sentGo [] (rest.dropWhile pyIsSpace)).length 2 with hlt | hge
      · have hne := sentGo_ne_nil [] (rest.dropWhile pyIsSpace)
        have h1 : (sentGo [] (rest.dropWhile pyIsSpace)).length = 1 := by
          cases hs' : sentGo [] (rest.dropWhile pyIsSpace) with
          | nil => exact absurd hs' hne
          | cons a b =>
            rw [hs'] at hlt
            simp only [List.length_cons] at hlt
            have : b.length = 0 := by omega
            simp [this]
        have h2 := sentGo_singleton [] (rest.dropWhile pyIsSpace) h1
        rw [h2] at htail
        obtain ⟨cl, tl, hdw, hlet⟩ := sepAt_dropWhile rest (andE hcut).2
        rw [List.mem_singleton.mp htail]
        simp only [List.reverse_nil, List.nil_append, hdw]
        have := isAsciiLetter_not_ws cl hlet
        simp [removeWS, List.filter, this]
      · exact ih hge s htail
  | case3 acc c rest hcut ih =>
    intro hlen s hs
    rw [sentGo_cons_keep acc c rest hcut] at hlen hs
    exact ih hlen s hs

/-- Every forced-offset piece fits in the window. -/
theorem chunkEvery_length_le :
    ∀ (n : Nat) (l : List Char), ∀ u ∈ chunkEvery n l, u.length ≤ n := by
  intro n l
  induction n, l using chunkEvery.induct with
  | case1 l => simp [chunkEvery]
  | case2 n h => simp [chunkEvery]
  | case3 n c rest ih =>
    intro u hu
    simp only [chunkEvery] at hu
    rcases List.mem_cons.mp hu with hh | ht
    · subst hh
      simp only [List.length_cons, List.length_take]
      omega
    · exact ih u ht

/-- Forced-offset pieces concatenate back to the input (positive window). -/
theorem chunkEvery_flatten :
    ∀ (n : Nat) (l : List Char), 0 < n → (chunkEvery n l).flatten = l := by
  intro n l
  induction n, l using chunkEvery.induct with
  | case1 l => intro h; exact absurd h (by omega)
  | case2 n h => intro _; simp [chunkEvery]
  | case3 n c rest ih =>
    intro _
    simp only [chunkEvery, List.flatten_cons]
    rw [ih (by omega)]
    simp [List.take_append_drop]

/-- Forced-offset pieces are nonempty. -/
theorem chunkEvery_ne_nil :
    ∀ (n : Nat) (l : List Char), ∀ u ∈ chunkEvery n l, u ≠ [] := by
  intro n l
  induction n, l using chunkEvery.induct with
  | case1 l => simp [chunkEvery]
  | case2 n h => simp [chunkEvery]
  | case3 n c rest ih =>
    intro u hu
    simp only [chunkEvery] at hu
    rcases List.mem_cons.mp hu with hh | ht
    · subst hh; simp
    · exact ih u ht

/-- Appending one trailing whitespace character does not change a strip. -/
theorem pyStrip_append_ws (l : List Char) (c : Char) (h : pyIsSpace c = true) :
    pyStrip (l ++ [c]) = pyStrip l := by
  unfold pyStrip
  rw [List.dropWhile_append]
  by_cases he : (l.dropWhile pyIsSpace).isEmpty
  · rw [if_pos he]
    have h1 : ([c].dropWhile pyIsSpace) = [] := by simp [List.dropWhile, h]
    have h2 : l.dropWhile pyIsSpace = [] := by simpa using he
    rw [h1, h2]
  · rw [if_neg he]
    rw [List.reverse_append]
    simp only [List.reverse_cons, List.reverse_nil, List.nil_append,
      List.singleton_append]
    rw [List.dropWhile_cons]
    simp [h]

/-- `rwsJoin` distributes over append. -/
theorem rwsJoin_append (a b : List (List Char)) :
    rwsJoin (a ++ b) = rwsJoin a ++ rwsJoin b := by
  simp [rwsJoin]

/-- `rwsJoin` of a singleton. -/
theorem rwsJoin_singleton (x : List Char) : rwsJoin [x] = removeWS x := by
  simp [rwsJoin]

/-- The sentence split of a paragraph preserves its non-whitespace
content. -/
theorem rwsJoin_sentenceSplit (para : List Char) :
    rwsJoin (sentenceSplit para) = removeWS para := by
  have := rwsJoin_sentGo [] para
  simpa [sentenceSplit, removeWS] using this

/-- One step of the sentence loop: emitted chunks stay within the limit,
the running `para_current` strips to within the limit, and no
non-whitespace content is created or lost. -/
theorem procSentence_step (maxChars : Nat) (hpos : 0 < maxChars)
    (chunks : List (List Char)) (pc s : List Char)
    (h1 : ∀ u ∈ chunks, u.length ≤ maxChars)
    (h2 : (pyStrip pc).length ≤ maxChars) :
    (∀ u ∈ (procSentence maxChars (chunks, pc) s).1, u.length ≤ maxChars) ∧
    (pyStrip (procSentence maxChars (chunks, pc) s).2).length ≤ maxChars ∧
    rwsJoin (procSentence maxChars (chunks, pc) s).1 ++
      removeWS (procSentence maxChars (chunks, pc) s).2 =
      rwsJoin chunks ++ (removeWS pc ++ removeWS s) := by
  have hrs : removeWS (s ++ [' ']) = removeWS s := by
    rw [removeWS_append]
    have h0 : removeWS [' '] = [] := rfl
    rw [h0, List.append_nil]
  have hs1 : removeWS (pyStrip (s ++ [' '])) = removeWS s := by
    rw [removeWS_pyStrip, hrs]
  have hce : rwsJoin (chunkEvery maxChars s) = removeWS s := by
    rw [← removeWS_flatten, chunkEvery_flatten maxChars s hpos]
  simp only [procSentence]
  by_cases hfit : pc.length + s.length + 1 ≤ maxChars
  · rw [if_pos hfit]
    refine ⟨h1, ?_, ?_⟩
    · show (pyStrip (pc ++ pyStrip (s ++ [' ']))).length ≤ maxChars
      have ha := pyStrip_length_le (pc ++ pyStrip (s ++ [' ']))
      have hb := pyStrip_length_le (s ++ [' '])
      have hg : (s ++ [' ']).length = s.length + 1 := by simp
      rw [List.length_append] at ha
      rw [hg] at hb
      omega
    · show rwsJoin chunks ++ removeWS (pc ++ pyStrip (s ++ [' '])) = _
      rw [removeWS_append, hs1]
  · rw [if_neg hfit]
    by_cases hpc : pc.isEmpty
    · have hpcnil : pc = [] := by simpa using hpc
      subst hpcnil
      rw [if_pos (show ([] : List Char).isEmpty = true from rfl)]
      by_cases hbig : maxChars < s.length
      · rw [if_pos hbig]
        refine ⟨?_, by simp [pyStrip], ?_⟩
        · intro u hu
          rcases List.mem_append.mp hu with h | h
          · exact h1 u h
          · exact chunkEvery_length_le maxChars s u h
        · show rwsJoin (chunks ++ chunkEvery maxChars s) ++ removeWS [] = _
          rw [rwsJoin_append, hce]
          simp [removeWS]
      · rw [if_neg hbig]
        refine ⟨h1, ?_, ?_⟩
        · show (pyStrip (s ++ [' '])).length ≤ maxChars
          rw [pyStrip_append_ws s ' ' rfl]
          have := pyStrip_length_le s
          omega
        · show rwsJoin chunks ++ removeWS (s ++ [' ']) = _
          rw [hrs]
          simp [removeWS]
    · rw [if_neg hpc]
      have hpcb : ∀ u ∈ chunks ++ [pyStrip pc], u.length ≤ maxChars := by
        intro u hu
        rcases List.mem_append.mp hu with h | h
        · exact h1 u h
        · rw [List.mem_singleton.mp h]; exact h2
      have hpcr : rwsJoin (chunks ++ [pyStrip pc]) =
          rwsJoin chunks ++ removeWS pc := by
        rw [rwsJoin_append, rwsJoin_singleton, removeWS_pyStrip]
      by_cases hbig : maxChars < s.length
      · rw [if_pos hbig]
        refine ⟨?_, by simp [pyStrip], ?_⟩
        · intro u hu
          rcases List.mem_append.mp hu with h | h
          · exact hpcb u h
          · exact chunkEvery_length_le maxChars s u h
        · show rwsJoin (chunks ++ [pyStrip pc] ++ chunkEvery maxChars s) ++
            removeWS [] = _
          rw [rwsJoin_append, hpcr, hce]
          simp [removeWS, List.append_assoc]
      · rw [if_neg hbig]
        refine ⟨hpcb, ?_, ?_⟩
        · show (pyStrip (s ++ [' '])).length ≤ maxChars
          rw [pyStrip_append_ws s ' ' rfl]
          have := pyStrip_length_le s
          omega
        · show rwsJoin (chunks ++ [pyStrip pc]) ++ removeWS (s ++ [' ']) = _
          rw [hpcr, hrs]
          simp [List.append_assoc]

/-- Invariant of the whole sentence loop. -/
theorem procSentence_foldl (maxChars : Nat) (hpos : 0 < maxChars) :
    ∀ (ss : List (List Char)) (chunks : List (List Char)) (pc : List Char),
    (∀ u ∈ chunks, u.length ≤ maxChars) → (pyStrip pc).length ≤ maxChars →
    (∀ u ∈ (ss.foldl (procSentence maxChars) (chunks, pc)).1,
      u.length ≤ maxChars) ∧
    (pyStrip (ss.foldl (procSentence maxChars) (chunks, pc)).2).length ≤
      maxChars ∧
    rwsJoin (ss.foldl (procSentence maxChars) (chunks, pc)).1 ++
      removeWS (ss.foldl (procSentence maxChars) (chunks, pc)).2 =
      rwsJoin chunks ++ (removeWS pc ++ rwsJoin ss) := by
  intro ss
  induction ss with
  | nil =>
    intro chunks pc h1 h2
    exact ⟨h1, h2, by simp [rwsJoin]⟩
  | cons s ss ih =>
    intro chunks pc h1 h2
    rcases hst : procSentence maxChars (chunks, pc) s with ⟨c', p'⟩
    have hstep := procSentence_step maxChars hpos chunks pc s h1 h2
    rw [hst] at hstep
    obtain ⟨hs1, hs2, hs3⟩ := hstep
    have hfold : (s :: ss).foldl (procSentence maxChars) (chunks, pc) =
        ss.foldl (procSentence maxChars) (c', p') := by
      simp [List.foldl_cons, hst]
    rw [hfold]
    obtain ⟨g1, g2, g3⟩ := ih c' p' hs1 hs2
    refine ⟨g1, g2, ?_⟩
    rw [g3]
    simp only [rwsJoin, List.map_cons, List.flatten_cons] at hs3 ⊢
    rw [← List.append_assoc, hs3]
    simp [List.append_assoc]

/-- One step of the sentence loop emits only nonempty chunks and keeps
`para_current` empty or carrying non-whitespace, provided every sentence is
either non-whitespace or oversized. -/
theorem procSentence_step_nonempty (maxChars : Nat) (_hpos : 0 < maxChars)
    (chunks : List (List Char)) (pc s : List Char)
    (hs : removeWS s ≠ [] ∨ maxChars < s.length)
    (h1 : ∀ u ∈ chunks, u ≠ [])
    (h2 : pc = [] ∨ removeWS pc ≠ []) :
    (∀ u ∈ (procSentence maxChars (chunks, pc) s).1, u ≠ []) ∧
    ((procSentence maxChars (chunks, pc) s).2 = [] ∨
      removeWS (procSentence maxChars (chunks, pc) s).2 ≠ []) := by
  have hrs : removeWS (s ++ [' ']) = removeWS s := by
    rw [removeWS_append]
    have h0 : removeWS [' '] = [] := rfl
    rw [h0, List.append_nil]
  simp only [procSentence]
  by_cases hfit : pc.length + s.length + 1 ≤ maxChars
  · rw [if_pos hfit]
    have hsmall : removeWS s ≠ [] := by
      rcases hs with h | h
      · exact h
      · exfalso; omega
    refine ⟨h1, Or.inr ?_⟩
    show removeWS (pc ++ pyStrip (s ++ [' '])) ≠ []
    rw [removeWS_append, removeWS_pyStrip, hrs]
    intro he
    exact hsmall (List.append_eq_nil.mp he).2
  · rw [if_neg hfit]
    have hflush : ∀ u ∈ (if pc.isEmpty = true then chunks
        else chunks ++ [pyStrip pc]), u ≠ [] := by
      by_cases hpc : pc.isEmpty
      · rw [if_pos hpc]; exact h1
      · rw [if_neg hpc]
        intro u hu
        rcases List.mem_append.mp hu with h | h
        · exact h1 u h
        · rw [List.mem_singleton.mp h]
          have hne : pc ≠ [] := by simpa using hpc
          rcases h2 with h2 | h2
          · exact absurd h2 hne
          · exact pyStrip_ne_nil pc h2
    by_cases hbig : maxChars < s.length
    · rw [if_pos hbig]
      refine ⟨?_, Or.inl rfl⟩
      intro u hu
      rcases List.mem_append.mp hu with h | h
      · exact hflush u h
      · exact chunkEvery_ne_nil maxChars s u h
    · rw [if_neg hbig]
      refine ⟨hflush, Or.inr ?_⟩
      show removeWS (s ++ [' ']) ≠ []
      rw [hrs]
      rcases hs with h | h
      · exact h
      · exact absurd h hbig

/-- The whole sentence loop emits only nonempty chunks. -/
theorem procSentence_foldl_nonempty (maxChars : Nat) (hpos : 0 < maxChars) :
    ∀ (ss : List (List Char)) (chunks : List (List Char)) (pc : List Char),
    (∀ s ∈ ss, removeWS s ≠ [] ∨ maxChars < s.length) →
    (∀ u ∈ chunks, u ≠ []) → (pc = [] ∨ removeWS pc ≠ []) →
    (∀ u ∈ (ss.foldl (procSentence maxChars) (chunks, pc)).1, u ≠ []) ∧
    ((ss.foldl (procSentence maxChars) (chunks, pc)).2 = [] ∨
      removeWS (ss.foldl (procSentence maxChars) (chunks, pc)).2 ≠ []) := by
  intro ss
  induction ss with
  | nil =>
    intro chunks pc _ h1 h2
    exact ⟨h1, h2⟩
  | cons s ss ih =>
    intro chunks pc hs h1 h2
    rcases hst : procSentence maxChars (chunks, pc) s with ⟨c', p'⟩
    have hstep := procSentence_step_nonempty maxChars hpos chunks pc s
      (hs s (List.mem_cons_self _ _)) h1 h2
    rw [hst] at hstep
    have hfold : (s :: ss).foldl (procSentence maxChars) (chunks, pc) =
        ss.foldl (procSentence maxChars) (c', p') := by
      simp [List.foldl_cons, hst]
    rw [hfold]
    exact ih c' p' (fun x hx => hs x (List.mem_cons_of_mem _ hx))
      hstep.1 hstep.2

/-- The sentence-level handling of one oversized paragraph: all pieces fit
the limit and no non-whitespace content is created or lost. -/
theorem procBigPara_spec (maxChars : Nat) (hpos : 0 < maxChars)
    (para : List Char) :
    (∀ u ∈ procBigPara maxChars para, u.length ≤ maxChars) ∧
    rwsJoin (procBigPara maxChars para) = removeWS para := by
  obtain ⟨g1, g2, g3⟩ := procSentence_foldl maxChars hpos
    (sentenceSplit para) [] [] (by simp) (by simp [pyStrip])
  unfold procBigPara
  constructor
  · intro u hu
    rcases List.mem_append.mp hu with h | h
    · exact g1 u h
    · by_cases h2 :
        ((sentenceSplit para).foldl (procSentence maxChars) ([], [])).2.isEmpty
      · rw [if_pos h2] at h; simp at h
      · rw [if_neg h2] at h
        rw [List.mem_singleton.mp h]
        exact g2
  · rw [rwsJoin_append]
    have hfl : rwsJoin (if ((sentenceSplit para).foldl (procSentence maxChars)
          ([], [])).2.isEmpty = true then []
        else [pyStrip ((sentenceSplit para).foldl (procSentence maxChars)
          ([], [])).2]) =
        removeWS ((sentenceSplit para).foldl (procSentence maxChars)
          ([], [])).2 := by
      by_cases h2 :
          ((sentenceSplit para).foldl (procSentence maxChars) ([], [])).2.isEmpty
      · rw [if_pos h2]
        have he : ((sentenceSplit para).foldl (procSentence maxChars)
            ([], [])).2 = [] := by simpa using h2
        rw [he]
        rfl
      · rw [if_neg h2, rwsJoin_singleton, removeWS_pyStrip]
    rw [hfl, g3, rwsJoin_sentenceSplit]
    rfl

/-- Every sentence of an oversized paragraph is either non-whitespace or
itself oversized. -/
theorem sentenceSplit_nonws_or_big (maxChars : Nat) (para : List Char)
    (hbig : maxChars < para.length) :
    ∀ s ∈ sentenceSplit para, removeWS s ≠ [] ∨ maxChars < s.length := by
  intro s hsmem
  rcases Nat.lt_or_ge (sentenceSplit para).length 2 with hlt | hge
  · have hne := sentGo_ne_nil [] para
    have h1 : (sentenceSplit para).length = 1 := by
      cases hsp : sentenceSplit para with
      | nil => exact absurd hsp (by simpa [sentenceSplit] using hne)
      | cons a b =>
        rw [hsp] at hlt
        simp only [List.length_cons] at hlt
        have hb : b.length = 0 := by omega
        simp [hb]
    have h2 := sentGo_singleton [] para h1
    unfold sentenceSplit at hsmem
    rw [h2] at hsmem
    have : s = para := by simpa using hsmem
    rw [this]
    exact Or.inr hbig
  · exact Or.inl (sentGo_multi_nonws [] para hge s hsmem)

/-- All pieces produced for an oversized paragraph are nonempty. -/
theorem procBigPara_nonempty (maxChars : Nat) (hpos : 0 < maxChars)
    (para : List Char) (hbig : maxChars < para.length) :
    ∀ u ∈ procBigPara maxChars para, u ≠ [] := by
  obtain ⟨g1, g2⟩ := procSentence_foldl_nonempty maxChars hpos
    (sentenceSplit para) [] [] (sentenceSplit_nonws_or_big maxChars para hbig)
    (by simp) (Or.inl rfl)
  unfold procBigPara
  intro u hu
  rcases List.mem_append.mp hu with h | h
  · exact g1 u h
  · by_cases h2 :
      ((sentenceSplit para).foldl (procSentence maxChars) ([], [])).2.isEmpty
    · rw [if_pos h2] at h; simp at h
    · rw [if_neg h2] at h
      rw [List.mem_singleton.mp h]
      have hne : ((sentenceSplit para).foldl (procSentence maxChars)
          ([], [])).2 ≠ [] := by simpa using h2
      rcases g2 with g2 | g2
      · exact absurd g2 hne
      · exact pyStrip_ne_nil _ g2

/-- One step of the paragraph loop: emitted chunks stay within the limit,
the buffer bookkeeping invariant (`current_len` is the joined length plus
two, and the joined buffer fits the limit) is maintained, and no
non-whitespace content is created or lost. -/
theorem procPara_step (maxChars : Nat) (hpos : 0 < maxChars) (st : SBL)
    (para : List Char)
    (h1 : ∀ u ∈ st.chunks, u.length ≤ maxChars)
    (h2 : st.current = [] → st.currentLen = 0)
    (h3 : st.current ≠ [] → st.currentLen = (join2NL st.current).length + 2 ∧
      (join2NL st.current).length ≤ maxChars) :
    (∀ u ∈ (procPara maxChars st para).chunks, u.length ≤ maxChars) ∧
    ((procPara maxChars st para).current = [] →
      (procPara maxChars st para).currentLen = 0) ∧
    ((procPara maxChars st para).current ≠ [] →
      (procPara maxChars st para).currentLen =
        (join2NL (procPara maxChars st para).current).length + 2 ∧
      (join2NL (procPara maxChars st para).current).length ≤ maxChars) ∧
    rwsJoin (procPara maxChars st para).chunks ++
      rwsJoin (procPara maxChars st para).current =
      rwsJoin st.chunks ++ rwsJoin st.current ++ removeWS para := by
  have hfl_b : ∀ u ∈ (if st.current.isEmpty = true then st.chunks
      else st.chunks ++ [join2NL st.current]), u.length ≤ maxChars := by
    by_cases hc : st.current.isEmpty
    · rw [if_pos hc]; exact h1
    · rw [if_neg hc]
      intro u hu
      rcases List.mem_append.mp hu with h | h
      · exact h1 u h
      · rw [List.mem_singleton.mp h]
        exact (h3 (by simpa using hc)).2
  have hfl_r : rwsJoin (if st.current.isEmpty = true then st.chunks
      else st.chunks ++ [join2NL st.current]) =
      rwsJoin st.chunks ++ rwsJoin st.current := by
    by_cases hc : st.current.isEmpty
    · rw [if_pos hc]
      have : st.current = [] := by simpa using hc
      rw [this]
      simp [rwsJoin]
    · rw [if_neg hc, rwsJoin_append, rwsJoin_singleton, removeWS_join2NL]
  simp only [procPara]
  by_cases hfit : st.currentLen + para.length ≤ maxChars
  · rw [if_pos hfit]
    refine ⟨h1, ?_, ?_, ?_⟩
    · intro hc
      exact absurd hc (by simp)
    · intro _
      by_cases hcur : st.current = []
      · rw [hcur]
        have hz := h2 hcur
        have hj : join2NL ([] ++ [para]) = para := by simp [join2NL]
      -- the buffer was empty, so the check admits exactly the paragraph
        rw [List.nil_append] at hj
        rw [List.nil_append, hj]
        constructor
        · show st.currentLen + para.length + 2 = para.length + 2
          omega
        · omega
      · obtain ⟨e1, e2⟩ := h3 hcur
        rw [join2NL_append_singleton_length st.current para hcur]
        constructor
        · show st.currentLen + para.length + 2 =
            (join2NL st.current).length + 2 + para.length + 2
          omega
        · omega
    · show rwsJoin st.chunks ++ rwsJoin (st.current ++ [para]) = _
      rw [rwsJoin_append, rwsJoin_singleton]
      simp [List.append_assoc]
  · rw [if_neg hfit]
    by_cases hbig : maxChars < para.length
    · rw [if_pos hbig]
      refine ⟨?_, fun _ => rfl, ?_, ?_⟩
      · intro u hu
        rcases List.mem_append.mp hu with h | h
        · exact hfl_b u h
        · exact (procBigPara_spec maxChars hpos para).1 u h
      · intro h
        exact absurd rfl h
      · show rwsJoin ((if st.current.isEmpty = true then st.chunks
            else st.chunks ++ [join2NL st.current]) ++
            procBigPara maxChars para) ++ rwsJoin [] = _
        rw [rwsJoin_append, hfl_r, (procBigPara_spec maxChars hpos para).2]
        simp [rwsJoin]
    · rw [if_neg hbig]
      refine ⟨hfl_b, ?_, ?_, ?_⟩
      · intro h
        exact absurd h (by simp)
      · intro _
        have hj : join2NL [para] = para := by simp [join2NL]
        rw [hj]
        exact ⟨rfl, by omega⟩
      · show rwsJoin (if st.current.isEmpty = true then st.chunks
            else st.chunks ++ [join2NL st.current]) ++ rwsJoin [para] = _
        rw [hfl_r, rwsJoin_singleton]

/-- Invariant of the whole paragraph loop. -/
theorem procPara_foldl (maxChars : Nat) (hpos : 0 < maxChars) :
    ∀ (ps : List (List Char)) (st : SBL),
    (∀ u ∈ st.chunks, u.length ≤ maxChars) →
    (st.current = [] → st.currentLen = 0) →
    (st.current ≠ [] → st.currentLen = (join2NL st.current).length + 2 ∧
      (join2NL st.current).length ≤ maxChars) →
    (∀ u ∈ (ps.foldl (procPara maxChars) st).chunks, u.length ≤ maxChars) ∧
    ((ps.foldl (procPara maxChars) st).current = [] →
      (ps.foldl (procPara maxChars) st).currentLen = 0) ∧
    ((ps.foldl (procPara maxChars) st).current ≠ [] →
      (ps.foldl (procPara maxChars) st).currentLen =
        (join2NL (ps.foldl (procPara maxChars) st).current).length + 2 ∧
      (join2NL (ps.foldl (procPara maxChars) st).current).length ≤ maxChars) ∧
    rwsJoin (ps.foldl (procPara maxChars) st).chunks ++
      rwsJoin (ps.foldl (procPara maxChars) st).current =
      rwsJoin st.chunks ++ rwsJoin st.current ++ rwsJoin ps := by
  intro ps
  induction ps with
  | nil =>
    intro st h1 h2 h3
    exact ⟨h1, h2, h3, by simp [rwsJoin]⟩
  | cons p ps ih =>
    intro st h1 h2 h3
    obtain ⟨s1, s2, s3, s4⟩ := procPara_step maxChars hpos st p h1 h2 h3
    have hfold : (p :: ps).foldl (procPara maxChars) st =
        ps.foldl (procPara maxChars) (procPara maxChars st p) := by
      simp [List.foldl_cons]
    rw [hfold]
    obtain ⟨g1, g2, g3, g4⟩ := ih (procPara maxChars st p) s1 s2 s3
    refine ⟨g1, g2, g3, ?_⟩
    rw [g4, s4]
    simp only [rwsJoin, List.map_cons, List.flatten_cons]
    simp [List.append_assoc]

/-- One step of the paragraph loop keeps all chunks and all buffered
paragraphs nonempty. -/
theorem procPara_step_nonempty (maxChars : Nat) (hpos : 0 < maxChars)
    (st : SBL) (para : List Char) (hpara : para ≠ [])
    (h1 : ∀ u ∈ st.chunks, u ≠ []) (h2 : ∀ p ∈ st.current, p ≠ []) :
    (∀ u ∈ (procPara maxChars st para).chunks, u ≠ []) ∧
    (∀ p ∈ (procPara maxChars st para).current, p ≠ []) := by
  have hfl : ∀ u ∈ (if st.current.isEmpty = true then st.chunks
      else st.chunks ++ [join2NL st.current]), u ≠ [] := by
    by_cases hc : st.current.isEmpty
    · rw [if_pos hc]; exact h1
    · rw [if_neg hc]
      intro u hu
      rcases List.mem_append.mp hu with h | h
      · exact h1 u h
      · rw [List.mem_singleton.mp h]
        exact join2NL_ne_nil st.current (by simpa using hc) h2
  simp only [procPara]
  by_cases hfit : st.currentLen + para.length ≤ maxChars
  · rw [if_pos hfit]
    refine ⟨h1, ?_⟩
    intro p hp
    rcases List.mem_append.mp hp with h | h
    · exact h2 p h
    · rw [List.mem_singleton.mp h]; exact hpara
  · rw [if_neg hfit]
    by_cases hbig : maxChars < para.length
    · rw [if_pos hbig]
      refine ⟨?_, by simp⟩
      intro u hu
      rcases List.mem_append.mp hu with h | h
      · exact hfl u h
      · exact procBigPara_nonempty maxChars hpos para hbig u h
    · rw [if_neg hbig]
      refine ⟨hfl, ?_⟩
      intro p hp
      rw [List.mem_singleton.mp hp]
      exact hpara

/-- The whole paragraph loop keeps chunks and buffer nonempty. -/
theorem procPara_foldl_nonempty (maxChars : Nat) (hpos : 0 < maxChars) :
    ∀ (ps : List (List Char)) (st : SBL),
    (∀ p ∈ ps, p ≠ []) →
    (∀ u ∈ st.chunks, u ≠ []) → (∀ p ∈ st.current, p ≠ []) →
    (∀ u ∈ (ps.foldl (procPara maxChars) st).chunks, u ≠ []) ∧
    (∀ p ∈ (ps.foldl (procPara maxChars) st).current, p ≠ []) := by
  intro ps
  induction ps with
  | nil =>
    intro st _ h1 h2
    exact ⟨h1, h2⟩
  | cons p ps ih =>
    intro st hps h1 h2
    obtain ⟨s1, s2⟩ := procPara_step_nonempty maxChars hpos st p
      (hps p (List.mem_cons_self _ _)) h1 h2
    have hfold : (p :: ps).foldl (procPara maxChars) st =
        ps.foldl (procPara maxChars) (procPara maxChars st p) := by
      simp [List.foldl_cons]
    rw [hfold]
    exact ih (procPara maxChars st p)
      (fun x hx => hps x (List.mem_cons_of_mem _ hx)) s1 s2

/-- `_split_by_length`: every emitted piece fits the limit, and the pieces
carry exactly the input's non-whitespace content in order. -/
theorem split_by_length_spec (text : List Char) (maxChars : Nat)
    (hpos : 0 < maxChars) :
    (∀ u ∈ split_by_length text maxChars, u.length ≤ maxChars) ∧
    rwsJoin (split_by_length text maxChars) = removeWS text := by
  obtain ⟨g1, g2, g3, g4⟩ := procPara_foldl maxChars hpos (splitOn2NL text)
    ⟨[], [], 0⟩ (by simp) (fun _ => rfl) (fun h => absurd rfl h)
  unfold split_by_length
  constructor
  · intro u hu
    rcases List.mem_append.mp hu with h | h
    · exact g1 u h
    · by_cases hc :
        ((splitOn2NL text).foldl (procPara maxChars) ⟨[], [], 0⟩).current.isEmpty
      · rw [if_pos hc] at h; simp at h
      · rw [if_neg hc] at h
        rw [List.mem_singleton.mp h]
        exact (g3 (by simpa using hc)).2
  · rw [rwsJoin_append]
    have hfl : rwsJoin (if ((splitOn2NL text).foldl (procPara maxChars)
          ⟨[], [], 0⟩).current.isEmpty = true then []
        else [join2NL ((splitOn2NL text).foldl (procPara maxChars)
          ⟨[], [], 0⟩).current]) =
        rwsJoin ((splitOn2NL text).foldl (procPara maxChars)
          ⟨[], [], 0⟩).current := by
      by_cases hc :
          ((splitOn2NL text).foldl (procPara maxChars) ⟨[], [], 0⟩).current.isEmpty
      · rw [if_pos hc]
        have : ((splitOn2NL text).foldl (procPara maxChars)
            ⟨[], [], 0⟩).current = [] := by simpa using hc
        rw [this]
      · rw [if_neg hc, rwsJoin_singleton, removeWS_join2NL]
    rw [hfl, g4]
    have : rwsJoin (splitOn2NL text) = removeWS text := by
      rw [← removeWS_join2NL, join2NL_splitOn2NL]
    rw [this]
    rfl

/-- `_split_by_length` emits only nonempty pieces when no paragraph of the
input is empty. -/
theorem split_by_length_nonempty (text : List Char) (maxChars : Nat)
    (hpos : 0 < maxChars) (hps : ∀ p ∈ splitOn2NL text, p ≠ []) :
    ∀ u ∈ split_by_length text maxChars, u ≠ [] := by
  obtain ⟨g1, g2⟩ := procPara_foldl_nonempty maxChars hpos (splitOn2NL text)
    ⟨[], [], 0⟩ hps (by simp) (by simp)
  unfold split_by_length
  intro u hu
  rcases List.mem_append.mp hu with h | h
  · exact g1 u h
  · by_cases hc :
      ((splitOn2NL text).foldl (procPara maxChars) ⟨[], [], 0⟩).current.isEmpty
    · rw [if_pos hc] at h; simp at h
    · rw [if_neg hc] at h
      rw [List.mem_singleton.mp h]
      exact join2NL_ne_nil _ (by simpa using hc) g2

/-- Claim C5: for every input text and positive `max_unit_chars`, the
segmenter's units each have length at most `max_unit_chars` (the
offset-forced pieces of an oversized atomic sentence included), and the
units carry exactly the input's non-whitespace characters in input order
(the splits only re-group text and drop separator whitespace), so unit
order matches the order of the corresponding text in the input. -/
theorem C5_segmentation_bounded_and_ordered (text : List Char)
    (maxChars : Nat) (hpos : 0 < maxChars) :
    (∀ u ∈ chunk_manuscript text maxChars, u.length ≤ maxChars) ∧
    rwsJoin (chunk_manuscript text maxChars) = removeWS text := by
  unfold chunk_manuscript
  constructor
  · intro u hu
    rcases List.mem_flatMap.mp hu with ⟨c, hc, huc⟩
    by_cases hb : maxChars < c.length
    · rw [if_pos hb] at huc
      exact (split_by_length_spec c maxChars hpos).1 u huc
    · rw [if_neg hb] at huc
      rw [List.mem_singleton.mp huc]
      omega
  · have hgen : ∀ cs : List (List Char),
        rwsJoin (cs.flatMap fun c => if maxChars < c.length
          then split_by_length c maxChars else [c]) = rwsJoin cs := by
      intro cs
      induction cs with
      | nil => rfl
      | cons c cs ih =>
        rw [List.flatMap_cons, rwsJoin_append, ih]
        by_cases hb : maxChars < c.length
        · rw [if_pos hb, (split_by_length_spec c maxChars hpos).2]
          simp [rwsJoin]
        · rw [if_neg hb, rwsJoin_singleton]
          simp [rwsJoin]
    rw [hgen, rwsJoin_strategyChunks]

/-- Witness for C5 at the spec's worked example: two chapter units, each
within the limit, carrying the input's text in order. -/
theorem C5_segmentation_bounded_and_ordered_witness :
    (0 : Nat) < 100 ∧
    (∀ u ∈ chunk_manuscript (str "Chapter 1\nA.\n\nChapter 2\nB.") 100,
      u.length ≤ 100) ∧
    rwsJoin (chunk_manuscript (str "Chapter 1\nA.\n\nChapter 2\nB.") 100) =
      removeWS (str "Chapter 1\nA.\n\nChapter 2\nB.") :=
  ⟨by decide,
   (C5_segmentation_bounded_and_ordered _ 100 (by decide)).1,
   (C5_segmentation_bounded_and_ordered _ 100 (by decide)).2⟩

/-- Claim C9, counterexample: on the empty input the whole-text fallback of
`chunk_manuscript` passes the empty string through unsplit, so the
segmenter returns a single empty unit — the claim that units are never
empty fails. -/
theorem C9_empty_input_yields_empty_unit :
    chunk_manuscript [] 800 = [[]] ∧
    ([] : List Char) ∈ chunk_manuscript [] 800 := by
  constructor
  · decide
  · decide

/-- Claim C9, amended: for a non-empty input text none of whose strategy
chunks contains an empty blank-line paragraph, every unit the segmenter
returns is non-empty. -/
theorem C9_units_nonempty (text : List Char) (maxChars : Nat)
    (hpos : 0 < maxChars) (htext : text ≠ [])
    (hpara : ∀ c ∈ strategyChunks text, ∀ p ∈ splitOn2NL c, p ≠ []) :
    ∀ u ∈ chunk_manuscript text maxChars, u ≠ [] := by
  unfold chunk_manuscript
  intro u hu
  rcases List.mem_flatMap.mp hu with ⟨c, hc, huc⟩
  by_cases hb : maxChars < c.length
  · rw [if_pos hb] at huc
    exact split_by_length_nonempty c maxChars hpos (hpara c hc) u huc
  · rw [if_neg hb] at huc
    rw [List.mem_singleton.mp huc]
    exact strategyChunks_ne_nil text htext c hc

/-- Witness for C9's amended theorem on a small well-formed input. -/
theorem C9_units_nonempty_witness :
    (str "Hello there." ≠ []) ∧
    (∀ u ∈ chunk_manuscript (str "Hello there.") 800, u ≠ []) :=
  ⟨by decide,
   C9_units_nonempty _ 800 (by decide) (by decide) (by decide)⟩

end Book.Chunker
